import Mathlib

/-!
# Verification of the machine-app runtime (HFSM + topic broker + RPC layer)

Shallow embedding of the core runtime pieces of the repository:

* `Fsm` — the hierarchical state machine wrapper (`fsm/core.py`):
  transition-history recording, per-state timeout management, recovery
  transitions.
* `Bundle` — the FSM trigger-RPC bundle
  (`vention_state_machine/src/state_machine/vention_communication.py`).
* `Errors` — the Connect error taxonomy and exception mapping
  (`vention_communication/errors.py`).
* `Broker` — the per-topic fan-out stream manager
  (`vention_communication/connect_router.py`).
* `Router` — the unary RPC request handler of the same file.
* `Registry` — bundle collection and camelCase alias normalization
  (`vention_communication/registry.py`, `typing_utils.py`).

Every definition mirrors the corresponding Python function; Python dicts
become association lists or explicit function states, `asyncio.Queue`
becomes a list with the capacity convention that `maxsize <= 0` means
unbounded, exceptions become `Except`/`Option` results.
-/

namespace Fsm

/-- One entry of the FSM transition history, mirroring the dicts appended by
`StateMachine._record_history_event`: `{timestamp, state}` at append time,
with `duration_ms` backfilled later. -/
structure HistEntry where
  timestamp : Nat
  state : String
  duration_ms : Option Nat
  deriving Repr, DecidableEq

/-- The slice of `StateMachine` state touched by `_record_history_event`:
the `_history` deque, `_current_start`, and `_last_state`. -/
structure HistState where
  history : List HistEntry
  currentStart : Option Nat
  lastState : Option String
  deriving Repr, DecidableEq

/-- The initial value of that state slice, as set in `StateMachine.__init__`. -/
def initHistState : HistState :=
  { history := [], currentStart := none, lastState := none }

/-- Embeds `deque(maxlen=n).append`: append on the right, dropping from the left when
the buffer exceeds its capacity. -/
def dequeAppend (maxlen : Nat) (l : List HistEntry) (e : HistEntry) : List HistEntry :=
  let grown := l ++ [e]
  if maxlen < grown.length then grown.drop (grown.length - maxlen) else grown

/-- Embeds `self._history[-1]["duration_ms"] = int(elapsed)`: overwrite the
`duration_ms` field of the last element. -/
def setLastDuration (d : Nat) : List HistEntry → List HistEntry
  | [] => []
  | [e] => [{ e with duration_ms := some d }]
  | e :: rest => e :: setLastDuration d rest

/-- Embeds `history_size or StateMachine.DEFAULT_HISTORY_SIZE`: Python truthiness
turns both `None` and `0` into the default of 1000. -/
def resolvedHistorySize (historySize : Option Nat) : Nat :=
  match historySize with
  | none => 1000
  | some 0 => 1000
  | some n => n

/-- Embeds `StateMachine._record_history_event`, with the wall clock passed in as
`now` (milliseconds are `(now - current_start) * 1000`). `dest` is
`event.transition.dest` and `destIsLeaf` is `self._is_leaf(dest)`. -/
def record_history_event (maxlen : Nat) (st : HistState) (now : Nat) (dest : String)
    (destIsLeaf : Bool) : HistState :=
  let backfilled :=
    match st.currentStart with
    | some start =>
        if st.history.isEmpty then st.history
        else setLastDuration ((now - start) * 1000) st.history
    | none => st.history
  let appended :=
    dequeAppend maxlen backfilled { timestamp := now, state := dest, duration_ms := none }
  { history := appended
    currentStart := some now
    lastState :=
      if destIsLeaf && !(dest == "ready") && !(dest == "fault") then some dest
      else st.lastState }

/-- Shape invariant of the history buffer: every entry but the last has its
duration backfilled, the last entry has none, and `_current_start` is set
exactly when the buffer is non-empty. -/
def HistShape (st : HistState) : Prop :=
  (∀ e ∈ st.history.dropLast, e.duration_ms.isSome) ∧
  (∀ e, st.history.getLast? = some e → e.duration_ms = none) ∧
  (st.history.isEmpty ↔ st.currentStart = none)

instance (st : HistState) : Decidable (HistShape st) := by
  unfold HistShape; infer_instance

/- ### Timeout bookkeeping (`set_timeout` / `_clear_timeout` / `_clear_all_timeouts`) -/

/-- The slice of `StateMachine` state that manages per-state timeouts.
`self._timeouts` is a dict from state name to the pending `asyncio.Task`;
we embed it as an association list of `(state, task id)` pairs together
with the set of task ids that have been `cancel()`led and a counter
producing fresh task ids for `spawn`. -/
structure TimeoutState where
  timeouts : List (String × Nat)
  cancelled : List Nat
  nextId : Nat
  deriving Repr, DecidableEq

def initTimeoutState : TimeoutState :=
  { timeouts := [], cancelled := [], nextId := 0 }

/-- Embeds `StateMachine._clear_timeout`: `self._timeouts.pop(state_name, None)` and
cancel the popped task if one was present. -/
def clear_timeout (st : TimeoutState) (stateName : String) : TimeoutState :=
  match st.timeouts.find? (fun p => p.1 == stateName) with
  | none => st
  | some p =>
      { st with
        timeouts := st.timeouts.filter (fun q => !(q.1 == stateName))
        cancelled := p.2 :: st.cancelled }

/-- Embeds `StateMachine.set_timeout`: first `_clear_timeout(state_name)`, then spawn
a fresh timeout task and store it under `state_name`. -/
def set_timeout (st : TimeoutState) (stateName : String) : TimeoutState :=
  let st1 := clear_timeout st stateName
  { timeouts := st1.timeouts ++ [(stateName, st1.nextId)]
    cancelled := st1.cancelled
    nextId := st1.nextId + 1 }

/-- Embeds `StateMachine._clear_all_timeouts`: cancel every stored task and clear the
dict. (`cancel_tasks` calls this before cancelling the tracked tasks.) -/
def clear_all_timeouts (st : TimeoutState) : TimeoutState :=
  { timeouts := []
    cancelled := st.timeouts.map Prod.snd ++ st.cancelled
    nextId := st.nextId }

/-- Embeds `StateMachine._attach_exit_timeout_clear`: the after-transition callback
clears the timeout keyed on the transition's source state. -/
def attach_exit_timeout_clear (st : TimeoutState) (source : String) : TimeoutState :=
  clear_timeout st source

/-- The operations that touch `self._timeouts` during a run. -/
inductive TimeoutOp where
  | set (stateName : String)
  | afterClear (sourceState : String)
  | cancelAll
  deriving Repr, DecidableEq

def applyTimeoutOp (st : TimeoutState) : TimeoutOp → TimeoutState
  | .set s => set_timeout st s
  | .afterClear s => attach_exit_timeout_clear st s
  | .cancelAll => clear_all_timeouts st

def runTimeoutOps (ops : List TimeoutOp) : TimeoutState :=
  ops.foldl applyTimeoutOp initTimeoutState

/-- The body of the timeout task spawned by `set_timeout`: after the sleep it
fires `trigger_fn()` iff the machine is still in exactly `state_name`.
Returns the trigger fired, if any. -/
def timeout_task_body (currentState stateName : String) (triggerResult : String) :
    Option String :=
  if currentState == stateName then some triggerResult else none

/- ### Recovery transitions (`_add_recovery_transitions`) -/

/-- A state specification dict as consumed by `StateMachine.__init__`:
`{"name": ..., "children": [...]}` with arbitrary nesting. -/
inductive StateSpec where
  | mk (name : String) (children : List StateSpec)

def StateSpec.name : StateSpec → String
  | .mk n _ => n

def StateSpec.children : StateSpec → List StateSpec
  | .mk _ c => c

/-- A transition triple `(trigger, source, dest)` as passed to
`Machine.add_transition`. -/
structure TransitionSpec where
  trigger : String
  source : String
  dest : String
  deriving Repr, DecidableEq

/-- Embeds `StateMachine._add_recovery_transitions`: for each declared root state
spec, for each of its (top-level) children, add a transition
`recover__<parent>_<child>` from `ready` to `<parent>_<child>`. -/
def add_recovery_transitions (declaredStates : List StateSpec) : List TransitionSpec :=
  declaredStates.flatMap fun spec =>
    spec.children.map fun childSpec =>
      { trigger := "recover__" ++ spec.name ++ "_" ++ childSpec.name
        source := "ready"
        dest := spec.name ++ "_" ++ childSpec.name }

mutual

/-- The fully-qualified names of the leaf states of a state graph, the
`transitions` library's naming joining nested states with `_`. A state is a
leaf iff it has no children. (This is the claim's notion of "leaf state",
used to compare with what `_add_recovery_transitions` actually produces.) -/
def leafNames (qual : String) : StateSpec → List String
  | .mk n [] => [qual ++ n]
  | .mk n (c :: cs) => leafNamesList (qual ++ n ++ "_") (c :: cs)

def leafNamesList (qual : String) : List StateSpec → List String
  | [] => []
  | s :: rest => leafNames qual s ++ leafNamesList qual rest

end

def allLeafNames (declaredStates : List StateSpec) : List String :=
  declaredStates.flatMap (leafNames "")

end Fsm

namespace Bundle

/-- Embeds the line building the RPC name in
`build_state_machine_bundle`: only the first character is uppercased.
(Triggers are non-empty identifiers; the empty case is unreachable.) -/
def rpc_name_for_trigger (trig : String) : String :=
  match trig.data with
  | [] => "Trigger_"
  | c :: rest => "Trigger_" ++ String.mk (c.toUpper :: rest)

/-- Python `str.capitalize`: uppercase the first character, lowercase the
rest. -/
def pyCapitalize (s : String) : String :=
  match s.data with
  | [] => ""
  | c :: rest => String.mk (c.toUpper :: rest.map Char.toLower)

/-- Split a character list on `_` (char-level `str.split("_")`). -/
def splitOnUnderscore : List Char → List (List Char)
  | [] => [[]]
  | c :: rest =>
      if c = '_' then [] :: splitOnUnderscore rest
      else
        match splitOnUnderscore rest with
        | [] => [[c]]
        | w :: ws => (c :: w) :: ws

/-- Char-level `str.capitalize`. -/
def pyCapitalizeChars : List Char → List Char
  | [] => []
  | c :: rest => c.toUpper :: rest.map Char.toLower

/-- The specification notion of the RPC name: `Trigger_<PascalCaseTrigger>`,
where PascalCase joins the underscore-separated words of the trigger with
each word capitalized. Written from the spec wording to compare against
`rpc_name_for_trigger`. -/
def spec_rpc_name_for_trigger (trig : String) : String :=
  "Trigger_" ++ String.mk ((splitOnUnderscore trig.data).flatMap pyCapitalizeChars)

/-- Names of the per-trigger ActionEntries produced by
`build_state_machine_bundle` over the selected triggers. -/
def trigger_action_names (triggers : List String) : List String :=
  triggers.map rpc_name_for_trigger

/-- The surface of the state machine used by `make_trigger_handler`:
current state, `get_triggers(current)` and the effect of firing a trigger. -/
structure SMModel where
  state : String
  allowed : String → List String
  fire : String → String → String

/-- Output message of a `Trigger_X` RPC: `{result, previousState, newState}`. -/
structure TriggerResponse where
  result : String
  previous_state : String
  new_state : String
  deriving Repr, DecidableEq

/-- Result of an RPC invocation: the response, or a `ConnectError` code. -/
inductive TriggerOutcome where
  | ok (resp : TriggerResponse)
  | err (code : String) (message : String)
  deriving Repr, DecidableEq

/-- Embeds `make_trigger_handler(trigger_name)`: check availability from the current
state, raise `failed_precondition` if absent (no state change), otherwise
fire the trigger and report the pre/post states. Returns the outcome and the
machine state after the call. -/
def trigger_call (sm : SMModel) (trig : String) : TriggerOutcome × String :=
  let current := sm.state
  if trig ∈ sm.allowed current then
    let newState := sm.fire trig current
    (.ok { result := trig, previous_state := current, new_state := newState }, newState)
  else
    (.err "failed_precondition"
      ("Trigger " ++ trig ++ " cannot run from " ++ current), current)

end Bundle

namespace Errors

/-- The keys of `CONNECT_CODE_MAP` in `errors.py`. -/
def CONNECT_CODES : List String :=
  ["cancelled", "unknown", "invalid_argument", "deadline_exceeded", "not_found",
   "already_exists", "permission_denied", "resource_exhausted",
   "failed_precondition", "aborted", "out_of_range", "unimplemented",
   "internal", "unavailable", "data_loss", "unauthenticated"]

structure ConnectError where
  code : String
  message : String
  deriving Repr, DecidableEq

/-- Embeds `ConnectError.__init__`: a code outside `CONNECT_CODE_MAP` is rewritten to
`unknown`. -/
def mkConnectError (code message : String) : ConnectError :=
  if code ∈ CONNECT_CODES then { code := code, message := message }
  else { code := "unknown", message := message }

/-- Python exceptions as discriminated by the `isinstance` chain of
`to_connect_error`. `validationError` stands for Pydantic's
`ValidationError`, which subclasses `ValueError` and therefore takes the
`(KeyError, ValueError)` branch. -/
inductive PyExc where
  | connectError (e : ConnectError)
  | timeoutError (msg : String)
  | keyError (msg : String)
  | valueError (msg : String)
  | validationError (msg : String)
  | permissionError (msg : String)
  | otherError (clsName msg : String)
  deriving Repr, DecidableEq

/-- Python `str(exc) or fallback`: the empty string is falsy. -/
def strOr (s fallback : String) : String :=
  if s = "" then fallback else s

/-- Embeds `to_connect_error` from `errors.py`. -/
def to_connect_error : PyExc → ConnectError
  | .connectError e => e
  | .timeoutError m => mkConnectError "deadline_exceeded" (strOr m "Deadline exceeded")
  | .keyError m => mkConnectError "invalid_argument" (strOr m "Invalid argument")
  | .valueError m => mkConnectError "invalid_argument" (strOr m "Invalid argument")
  | .validationError m => mkConnectError "invalid_argument" (strOr m "Invalid argument")
  | .permissionError m => mkConnectError "permission_denied" (strOr m "Permission denied")
  | .otherError clsName m => mkConnectError "internal" (strOr m clsName)

/-- Embeds `error_envelope`: the `{"error": {code, message, details}}` payload,
reduced to the code/message pair (details is a passthrough list). -/
def error_envelope (exc : PyExc) : String × String :=
  ((to_connect_error exc).code, (to_connect_error exc).message)

end Errors

namespace Broker

/-- Embeds `asyncio.Queue(maxsize=cap).put_nowait`: fails (QueueFull) iff the queue
is bounded (`0 < cap`) and already holds at least `cap` items. -/
def put_nowait {α : Type} (cap : Nat) (q : List α) (x : α) : Option (List α) :=
  if 0 < cap ∧ cap ≤ q.length then none else some (q ++ [x])

/-- Embeds `asyncio.Queue.get_nowait`: fails (QueueEmpty) iff the queue is empty. -/
def get_nowait {α : Type} (q : List α) : Option (α × List α) :=
  match q with
  | [] => none
  | x :: rest => some (x, rest)

/-- The per-stream configuration carried by a `StreamEntry`
(`replay`, `queue_maxsize`, `policy`). -/
structure StreamEntryCfg where
  name : String
  replay : Bool
  queue_maxsize : Nat
  policy : String
  deriving Repr, DecidableEq

/-- The queue-seeding part of `StreamManager.subscribe`: a fresh queue of
capacity `queue_maxsize`; if `replay` and `last_value` is set, seed it,
discarding the oldest queued item first when the put would overflow (an
uncaught QueueEmpty from the discard is `none`). -/
def subscribe_seed {α : Type} (entry : StreamEntryCfg) (lastValue : Option α) :
    Option (List α) :=
  let freshQueue : List α := []
  if entry.replay then
    match lastValue with
    | some v =>
        match put_nowait entry.queue_maxsize freshQueue v with
        | some seeded => some seeded
        | none =>
            match get_nowait freshQueue with
            | none => none
            | some (_, rest) => put_nowait entry.queue_maxsize rest v
    | none => some freshQueue
  else some freshQueue

/-- One delivery of `item` to one subscriber queue under the `latest` policy
(`StreamManager._distributor`): non-blocking enqueue; on QueueFull drop the
oldest item (ignoring errors) and retry; `none` marks the subscriber dead. -/
def deliver_latest {α : Type} (cap : Nat) (q : List α) (item : α) : Option (List α) :=
  match put_nowait cap q item with
  | some q1 => some q1
  | none =>
      let dropped := ((get_nowait q).map Prod.snd).getD q
      match put_nowait cap dropped item with
      | some q2 => some q2
      | none => none

/-- One distributor round under `latest`: deliver to every subscriber and
discard the subscribers marked dead. Subscribers are represented by their
queues. -/
def distribute_latest {α : Type} (cap : Nat) (subs : List (List α)) (item : α) :
    List (List α) :=
  subs.filterMap fun q => deliver_latest cap q item

/-- A slow subscriber (never reading) observing a sequence of publishes:
fold `deliver_latest` over the published items. -/
def deliver_all {α : Type} (cap : Nat) (q : List α) (items : List α) :
    Option (List α) :=
  items.foldl (fun acc item => acc.bind fun q1 => deliver_latest cap q1 item) (some q)

/-- Embeds `StreamManager.publish`: raise KeyError for a stream name absent from the
topic map, otherwise enqueue the item onto that topic's publish queue.
Topics are reduced to their publish-queue contents. -/
def sm_publish {α : Type} (topics : List (String × List α)) (name : String) (item : α) :
    Except String (List (String × List α)) :=
  match topics.find? (fun p => p.1 == name) with
  | none => .error ("Unknown stream: " ++ name)
  | some _ =>
      .ok (topics.map fun p => if p.1 == name then (p.1, p.2 ++ [item]) else p)

/-- Embeds `ConnectRouter.publish`: if the manager has no topic for the name, look
the entry up in the registered streams; raise KeyError when absent, otherwise
create the topic (`add_stream` / `ensure_topic`, with an empty publish queue)
and delegate to `StreamManager.publish`. -/
def router_publish {α : Type} (topics : List (String × List α)) (streams : List String)
    (name : String) (item : α) : Except String (List (String × List α)) :=
  if (topics.find? (fun p => p.1 == name)).isSome then
    sm_publish topics name item
  else if name ∈ streams then
    sm_publish (topics ++ [(name, [])]) name item
  else
    .error ("Unknown stream: " ++ name)

end Broker

namespace Router

/-- Result of a unary RPC call: a successful JSON response or the JSON error
envelope (reduced to its code). -/
inductive UnaryResult (R : Type) where
  | ok (r : R)
  | errorEnvelope (code : String)
  deriving Repr, DecidableEq

/-- The unary handler of `ConnectRouter.add_unary`:
`request.json()` failing (malformed body, `rawBody = none`) is swallowed and
replaced by `{}` (`emptyObj`); if the entry has an input type the body is
validated (`model_validate`, whose ValidationError is a `ValueError`), and
any exception is rendered through `error_envelope`. The returned `Bool`
records whether `entry.func` was invoked. -/
def handle_unary {J I R : Type} (validate : Option (J → Except Errors.PyExc I))
    (func : Option I → R) (emptyObj : J) (rawBody : Option J) :
    Bool × UnaryResult R :=
  let requestBody := rawBody.getD emptyObj
  match validate with
  | none => (true, .ok (func none))
  | some v =>
      match v requestBody with
      | .ok arg => (true, .ok (func (some arg)))
      | .error exc => (false, .errorEnvelope (Errors.to_connect_error exc).code)

end Router

namespace Registry

/-- Python type annotations as analysed by `_extract_nested_models`:
a Pydantic model (identified by a numeric id), `Optional[T]`
(`Union[T, None]`), `List[T]`, or anything else (`prim`). -/
inductive PyType where
  | prim
  | model (m : Nat)
  | option (t : PyType)
  | listT (t : PyType)
  deriving Repr, DecidableEq

/-- Embeds `_extract_nested_models` from the registry normalization pass:
unwrap one `Optional` layer, then one `List` layer (with one more `Optional`
inside the list), and keep the result iff it is a Pydantic model. -/
def extract_nested_models (t : PyType) : List Nat :=
  let afterUnion := match t with
    | .option inner => inner
    | other => other
  let afterList := match afterUnion with
    | .listT inner =>
        match inner with
        | .option u => u
        | other2 => other2
    | other => other
  match afterList with
  | .model m => [m]
  | _ => []

/-- A world of model classes: each model id has a list of
`(field name, annotation)` pairs (`model.model_fields`). -/
def Fields : Type := Nat → List (String × PyType)

/-- Model ids directly nested in the fields of model `m`. -/
def nestedOf (fields : Fields) (m : Nat) : List Nat :=
  (fields m).flatMap fun f => extract_nested_models f.2

/-- The mutable state of one normalization run: the `seen` set and the list of
`apply_aliases` calls in order. -/
structure NormState where
  seen : List Nat
  applied : List Nat
  deriving Repr, DecidableEq

/-- Embeds `normalize_model`: skip `None` and already-seen models, otherwise mark as
seen, `apply_aliases`, and recurse into the models extracted from every
field annotation. `fuel` bounds the recursion depth (the Python recursion
terminates because `seen` grows within a finite class universe). -/
def normalize_model (fields : Fields) : Nat → Option Nat → NormState → NormState
  | _, none, st => st
  | 0, some _, st => st
  | fuel + 1, some m, st =>
      if m ∈ st.seen then st
      else
        let st1 : NormState := { seen := m :: st.seen, applied := st.applied ++ [m] }
        (nestedOf fields m).foldl
          (fun s n => normalize_model fields fuel (some n) s) st1

/-- The registry state relevant to normalization: the root message types of
all registered actions and streams (input/output/payload, `none` for absent
or non-model annotations) and the `_models_normalized` flag. -/
structure RegistryState where
  rootTypes : List (Option Nat)
  normalized : Bool
  deriving Repr, DecidableEq

/-- Embeds `RpcRegistry.normalize_models_and_apply_aliases`: a no-op when
`_models_normalized` is already set; otherwise walk every root type with a
fresh `seen` set and set the flag. Returns the new registry state and the
`apply_aliases` calls performed by this run. -/
def normalize_models_and_apply_aliases (fields : Fields) (fuel : Nat)
    (reg : RegistryState) : RegistryState × List Nat :=
  if reg.normalized then (reg, [])
  else
    let st := reg.rootTypes.foldl
      (fun s r => normalize_model fields fuel r s)
      { seen := [], applied := [] }
    ({ reg with normalized := true }, st.applied)

/-- Embeds the schema effect of `get_unified_bundle`, which first calls `normalize_models_and_apply_aliases`;
for the schema this is all it does. -/
def get_unified_bundle_normalize (fields : Fields) (fuel : Nat)
    (reg : RegistryState) : RegistryState × List Nat :=
  normalize_models_and_apply_aliases fields fuel reg

/-- Embeds `camelize` from `typing_utils.py`: keep the first underscore-separated
part and `str.capitalize` the remaining ones. -/
def camelize (name : String) : String :=
  match name.splitOn "_" with
  | [] => ""
  | w :: ws => w ++ String.join (ws.map Bundle.pyCapitalize)

/-- The observable schema: for each model and field name, the JSON alias
currently assigned (none when `apply_aliases` has not touched it). -/
def Schema : Type := Nat → String → Option String

/-- Embeds `apply_aliases(model_cls)`: set `alias = camelize(name)` on every field of
the model. -/
def apply_aliases (fields : Fields) (m : Nat) (σ : Schema) : Schema :=
  fun m2 fieldName =>
    if m2 = m ∧ fieldName ∈ (fields m).map Prod.fst then some (camelize fieldName)
    else σ m2 fieldName

/-- Replay the `apply_aliases` calls of a run over an initial schema. -/
def schema_after (fields : Fields) (applied : List Nat) (σ0 : Schema) : Schema :=
  applied.foldl (fun σ m => apply_aliases fields m σ) σ0

/-- The models reachable from the registered root types through the field
traversal of `normalize_model`. -/
inductive Reaches (fields : Fields) (roots : List Nat) : Nat → Prop
  | root {m : Nat} : m ∈ roots → Reaches fields roots m
  | step {m n : Nat} : Reaches fields roots m → n ∈ nestedOf fields m →
      Reaches fields roots n

/-- Number of model ids below `bound` not yet seen; the decreasing measure of
the DFS. -/
def slack (bound : Nat) (seen : List Nat) : Nat :=
  ((List.range bound).filter (fun x => decide (x ∉ seen))).length

/-- One normalization step extends another state: the `seen` set grows, and
the `apply_aliases` count of a model increases by one exactly when that model
enters `seen`. -/
def Extends (st st2 : NormState) : Prop :=
  (∀ x, x ∈ st.seen → x ∈ st2.seen) ∧
  (∀ x : Nat, st2.applied.count x = st.applied.count x +
    (if x ∈ st2.seen ∧ x ∉ st.seen then 1 else 0))

/-- All seen model ids lie below the universe bound. -/
def SeenBound (bound : Nat) (st : NormState) : Prop :=
  ∀ x ∈ st.seen, x < bound

/-- A small concrete model universe used to witness the normalization
theorem: model 0 nests model 1 inside `Optional`, model 1 nests model 2
inside `List[Optional[...]]`, model 2 has no fields. -/
def exampleFields : Fields := fun m =>
  match m with
  | 0 => [("inner_model", PyType.option (PyType.model 1)),
          ("plain_field", PyType.prim)]
  | 1 => [("leaf_items", PyType.listT (PyType.option (PyType.model 2)))]
  | _ => []

end Registry

/-! ## Helper lemmas -/

namespace Fsm

theorem setLastDuration_length (d : Nat) (l : List HistEntry) :
    (setLastDuration d l).length = l.length := by
  induction l with
  | nil => rfl
  | cons e rest ih =>
    cases rest with
    | nil => rfl
    | cons r rs => simp only [setLastDuration, List.length_cons] at ih ⊢; omega

theorem setLastDuration_getLast? (d : Nat) (l : List HistEntry) :
    (setLastDuration d l).getLast? =
      l.getLast?.map (fun e => { e with duration_ms := some d }) := by
  induction l with
  | nil => rfl
  | cons e rest ih =>
    cases rest with
    | nil => rfl
    | cons r rs =>
      show (e :: setLastDuration d (r :: rs)).getLast? = _
      cases hsd : setLastDuration d (r :: rs) with
      | nil =>
        have hlen := setLastDuration_length d (r :: rs)
        rw [hsd] at hlen
        simp at hlen
      | cons x xs =>
        rw [List.getLast?_cons_cons, ← hsd, ih, List.getLast?_cons_cons]

theorem setLastDuration_dropLast (d : Nat) (l : List HistEntry) :
    (setLastDuration d l).dropLast = l.dropLast := by
  induction l with
  | nil => rfl
  | cons e rest ih =>
    cases rest with
    | nil => rfl
    | cons r rs =>
      show (e :: setLastDuration d (r :: rs)).dropLast = (e :: r :: rs).dropLast
      cases hsd : setLastDuration d (r :: rs) with
      | nil =>
        have hlen := setLastDuration_length d (r :: rs)
        rw [hsd] at hlen
        simp at hlen
      | cons x xs =>
        show e :: (x :: xs).dropLast = e :: (r :: rs).dropLast
        rw [← hsd, ih]

theorem setLastDuration_all_isSome (d : Nat) (l : List HistEntry)
    (h : ∀ e ∈ l.dropLast, e.duration_ms.isSome) :
    ∀ e ∈ setLastDuration d l, e.duration_ms.isSome := by
  induction l with
  | nil => intro e he; cases he
  | cons a rest ih =>
    cases rest with
    | nil =>
      intro e he
      simp only [setLastDuration, List.mem_singleton] at he
      subst he; rfl
    | cons r rs =>
      intro e he
      simp only [setLastDuration, List.mem_cons] at he
      rcases he with rfl | he
      · exact h _ (List.mem_cons_self _ _)
      · exact ih (fun x hx => h x (List.mem_cons_of_mem _ hx)) e he

theorem getLast?_drop_of_lt {α : Type} (l : List α) (k : Nat) (h : k < l.length) :
    (l.drop k).getLast? = l.getLast? := by
  conv_rhs => rw [← List.take_append_drop k l]
  rw [List.getLast?_append_of_ne_nil]
  intro hnil
  have := congrArg List.length hnil
  simp only [List.length_drop, List.length_nil] at this
  omega

theorem dequeAppend_length_le (maxlen : Nat) (l : List HistEntry) (e : HistEntry)
    (h1 : 1 ≤ maxlen) (h2 : l.length ≤ maxlen) :
    (dequeAppend maxlen l e).length ≤ maxlen := by
  show (if maxlen < (l ++ [e]).length then
      (l ++ [e]).drop ((l ++ [e]).length - maxlen) else (l ++ [e])).length ≤ maxlen
  by_cases hc : maxlen < (l ++ [e]).length
  · rw [if_pos hc]
    simp only [List.length_drop, List.length_append, List.length_singleton] at *
    omega
  · rw [if_neg hc]
    simp only [List.length_append, List.length_singleton] at *
    omega

theorem dequeAppend_eq (maxlen : Nat) (l : List HistEntry) (e : HistEntry)
    (h : 1 ≤ maxlen) :
    ∃ k, k ≤ l.length ∧ k ≤ l.length + 1 - maxlen ∧
      dequeAppend maxlen l e = l.drop k ++ [e] := by
  by_cases hc : maxlen < (l ++ [e]).length
  · refine ⟨(l ++ [e]).length - maxlen, ?_, ?_, ?_⟩
    · simp only [List.length_append, List.length_singleton]
      omega
    · simp only [List.length_append, List.length_singleton]
      omega
    · show (if maxlen < (l ++ [e]).length then
          (l ++ [e]).drop ((l ++ [e]).length - maxlen) else (l ++ [e])) = _
      rw [if_pos hc, List.drop_append_of_le_length
        (by simp only [List.length_append, List.length_singleton]; omega)]
  · refine ⟨0, Nat.zero_le _, Nat.zero_le _, ?_⟩
    show (if maxlen < (l ++ [e]).length then
        (l ++ [e]).drop ((l ++ [e]).length - maxlen) else (l ++ [e])) = _
    rw [if_neg hc]
    simp

end Fsm

/-! ## Claim theorems -/

/-- C1: the after-hook `_record_history_event` appends a history entry
`{timestamp, state}` whose state is the transition's destination; it
backfills `duration_ms` on the previously last entry exactly when the next
entry is appended (the shape invariant "all entries but the last carry a
duration, the last does not" is preserved); the buffer never exceeds its
capacity; and with `history_size = 2`, three transitions leave exactly the
two newest entries. -/
theorem c1_history_recording (maxlen : Nat) (st : Fsm.HistState) (now : Nat)
    (dest : String) (destIsLeaf : Bool) (hmax : 1 ≤ maxlen)
    (hlen : st.history.length ≤ maxlen) (hshape : Fsm.HistShape st) :
    (Fsm.record_history_event maxlen st now dest destIsLeaf).history.getLast? =
        some { timestamp := now, state := dest, duration_ms := none } ∧
    (∀ t0 prev, 2 ≤ maxlen → st.currentStart = some t0 →
      st.history.getLast? = some prev →
      (Fsm.record_history_event maxlen st now dest destIsLeaf).history.dropLast.getLast? =
        some { prev with duration_ms := some ((now - t0) * 1000) }) ∧
    Fsm.HistShape (Fsm.record_history_event maxlen st now dest destIsLeaf) ∧
    (Fsm.record_history_event maxlen st now dest destIsLeaf).history.length ≤ maxlen ∧
    (∀ hs, 1 ≤ Fsm.resolvedHistorySize hs) ∧
    (∀ (t1 t2 t3 : Nat) (s1 s2 s3 : String) (l1 l2 l3 : Bool),
      (Fsm.record_history_event 2
        (Fsm.record_history_event 2
          (Fsm.record_history_event 2 Fsm.initHistState t1 s1 l1) t2 s2 l2)
            t3 s3 l3).history.map Fsm.HistEntry.state = [s2, s3]) := by
  obtain ⟨hs1, hs2, hs3⟩ := hshape
  have hcstart : (Fsm.record_history_event maxlen st now dest destIsLeaf).currentStart
      = some now := rfl
  have main : ∃ b k,
      (Fsm.record_history_event maxlen st now dest destIsLeaf).history =
        Fsm.dequeAppend maxlen b { timestamp := now, state := dest, duration_ms := none } ∧
      (Fsm.record_history_event maxlen st now dest destIsLeaf).history =
        b.drop k ++ [{ timestamp := now, state := dest, duration_ms := none }] ∧
      k ≤ b.length ∧ k ≤ b.length + 1 - maxlen ∧
      b.length = st.history.length ∧
      (∀ e ∈ b, e.duration_ms.isSome) ∧
      (∀ t0 prev, st.currentStart = some t0 → st.history.getLast? = some prev →
        b.getLast? = some { prev with duration_ms := some ((now - t0) * 1000) }) := by
    rcases hcs : st.currentStart with _ | t0
    · have hemp : st.history = [] := by
        rw [List.isEmpty_iff] at hs3
        exact hs3.mpr hcs
      have hrec : (Fsm.record_history_event maxlen st now dest destIsLeaf).history =
          Fsm.dequeAppend maxlen []
            { timestamp := now, state := dest, duration_ms := none } := by
        simp [Fsm.record_history_event, hcs, hemp]
      obtain ⟨k, hk1, hk2, hk3⟩ := Fsm.dequeAppend_eq maxlen []
        { timestamp := now, state := dest, duration_ms := none } hmax
      refine ⟨[], k, hrec, hrec.trans hk3, hk1, hk2, by rw [hemp], ?_, ?_⟩
      · intro e he
        cases he
      · intro t0 prev h1 _
        cases h1
    · have hne : st.history ≠ [] := by
        intro hemp
        rw [List.isEmpty_iff] at hs3
        rw [hs3.mp hemp] at hcs
        cases hcs
      have hrec : (Fsm.record_history_event maxlen st now dest destIsLeaf).history =
          Fsm.dequeAppend maxlen (Fsm.setLastDuration ((now - t0) * 1000) st.history)
            { timestamp := now, state := dest, duration_ms := none } := by
        simp [Fsm.record_history_event, hcs, List.isEmpty_iff, hne]
      obtain ⟨k, hk1, hk2, hk3⟩ := Fsm.dequeAppend_eq maxlen
        (Fsm.setLastDuration ((now - t0) * 1000) st.history)
        { timestamp := now, state := dest, duration_ms := none } hmax
      refine ⟨_, k, hrec, hrec.trans hk3, hk1, hk2,
        Fsm.setLastDuration_length _ _, Fsm.setLastDuration_all_isSome _ _ hs1, ?_⟩
      intro t0' prev h1 h2
      injection h1 with h1
      subst h1
      rw [Fsm.setLastDuration_getLast?, h2]
      rfl
  obtain ⟨b, k, hrecA, hrecB, hk1, hk2, hblen, hbsome, hblast⟩ := main
  refine ⟨?_, ?_, ⟨?_, ?_, ?_⟩, ?_, ?_, ?_⟩
  · rw [hrecB]
    exact List.getLast?_concat _
  · intro t0 prev h2max hcs0 hlast
    have hhist_ne : st.history ≠ [] := by
      intro hemp
      rw [hemp] at hlast
      cases hlast
    have hkb : k < b.length := by
      have : 1 ≤ st.history.length := List.length_pos.mpr hhist_ne
      omega
    rw [hrecB, List.dropLast_concat, Fsm.getLast?_drop_of_lt _ _ hkb]
    exact hblast t0 prev hcs0 hlast
  · rw [hrecB, List.dropLast_concat]
    intro e he
    exact hbsome e (List.drop_subset _ _ he)
  · rw [hrecB]
    intro e he
    rw [List.getLast?_concat] at he
    injection he with he
    subst he
    rfl
  · rw [hrecB, hcstart]
    simp
  · rw [hrecA]
    exact Fsm.dequeAppend_length_le maxlen b _ hmax (hblen ▸ hlen)
  · intro hs
    rcases hs with _ | n
    · decide
    · cases n with
      | zero => decide
      | succ m => simp [Fsm.resolvedHistorySize]
  · intro t1 t2 t3 s1 s2 s3 l1 l2 l3
    simp [Fsm.record_history_event, Fsm.initHistState, Fsm.dequeAppend,
      Fsm.setLastDuration]

namespace Fsm

/-- The dict invariant: at most one `_timeouts` entry per state. -/
def KeysNodup (st : TimeoutState) : Prop :=
  (st.timeouts.map Prod.fst).Nodup

instance (st : TimeoutState) : Decidable (KeysNodup st) := by
  unfold KeysNodup
  infer_instance

theorem clear_timeout_nextId (st : TimeoutState) (s : String) :
    (clear_timeout st s).nextId = st.nextId := by
  unfold clear_timeout
  cases st.timeouts.find? (fun p => p.1 == s) <;> rfl

theorem clear_timeout_key_ne (st : TimeoutState) (s : String) :
    ∀ q ∈ (clear_timeout st s).timeouts, q.1 ≠ s := by
  unfold clear_timeout
  cases hf : st.timeouts.find? (fun p => p.1 == s) with
  | none =>
    intro q hq
    have := List.find?_eq_none.mp hf q hq
    simpa using this
  | some p =>
    intro q hq
    simp only [List.mem_filter] at hq
    simpa using hq.2

theorem keysNodup_clear_timeout (st : TimeoutState) (s : String) (h : KeysNodup st) :
    KeysNodup (clear_timeout st s) := by
  unfold clear_timeout
  cases st.timeouts.find? (fun p => p.1 == s) with
  | none => exact h
  | some p =>
    exact h.sublist ((List.filter_sublist st.timeouts).map Prod.fst)

theorem keysNodup_set_timeout (st : TimeoutState) (s : String) (h : KeysNodup st) :
    KeysNodup (set_timeout st s) := by
  have h1 := keysNodup_clear_timeout st s h
  have h2 := clear_timeout_key_ne st s
  unfold set_timeout KeysNodup
  rw [List.map_append, List.nodup_append]
  refine ⟨h1, List.nodup_singleton s, ?_⟩
  intro x hx hx2
  simp only [List.map_cons, List.map_nil, List.mem_singleton] at hx2
  subst hx2
  obtain ⟨q, hq, hqx⟩ := List.mem_map.mp hx
  exact h2 q hq (by rw [hqx])

theorem keysNodup_apply (st : TimeoutState) (op : TimeoutOp) (h : KeysNodup st) :
    KeysNodup (applyTimeoutOp st op) := by
  cases op with
  | set s => exact keysNodup_set_timeout st s h
  | afterClear s => exact keysNodup_clear_timeout st s h
  | cancelAll => exact List.nodup_nil

theorem keysNodup_foldl (ops : List TimeoutOp) :
    ∀ st, KeysNodup st → KeysNodup (ops.foldl applyTimeoutOp st) := by
  induction ops with
  | nil => intro st h; exact h
  | cons op rest ih =>
    intro st h
    exact ih _ (keysNodup_apply st op h)

theorem pair_eq_of_keysNodup {l : List (String × Nat)}
    (h : (l.map Prod.fst).Nodup) {a b : String × Nat}
    (h1 : a ∈ l) (h2 : b ∈ l) (hf : a.1 = b.1) : a = b := by
  induction l with
  | nil => cases h1
  | cons c t ih =>
    simp only [List.map_cons, List.nodup_cons] at h
    rcases List.mem_cons.mp h1 with rfl | h1t
    · rcases List.mem_cons.mp h2 with rfl | h2t
      · rfl
      · exact absurd (hf ▸ List.mem_map_of_mem Prod.fst h2t) h.1
    · rcases List.mem_cons.mp h2 with rfl | h2t
      · exact absurd (hf ▸ List.mem_map_of_mem Prod.fst h1t) h.1
      · exact ih h.2 h1t h2t

end Fsm

namespace Fsm

theorem set_timeout_timeouts (st : TimeoutState) (s : String) :
    (set_timeout st s).timeouts =
      (clear_timeout st s).timeouts ++ [(s, (clear_timeout st s).nextId)] := rfl

theorem set_timeout_cancelled (st : TimeoutState) (s : String) :
    (set_timeout st s).cancelled = (clear_timeout st s).cancelled := rfl

end Fsm

/-- Closed witness for `c1_history_recording` at a concrete input. -/
theorem c1_history_recording_witness :
    (Fsm.record_history_event 2 Fsm.initHistState 5 "picking" true).history.getLast? =
      some { timestamp := 5, state := "picking", duration_ms := none } :=
  (c1_history_recording 2 Fsm.initHistState 5 "picking" true (by decide) (by decide)
    (by simp [Fsm.HistShape, Fsm.initHistState])).1

/-- C2: for every state `s`, `set_timeout` first cancels and removes any
previously pending timeout task for `s` before installing the new one; after
any sequence of `set_timeout`, after-transition clears, and `cancel_tasks`
operations the `_timeouts` dict holds at most one entry per state; and the
installed timeout body, after its sleep, fires the trigger exactly when the
machine is still in `s`. -/
theorem c2_single_timeout_per_state :
    (∀ ops : List Fsm.TimeoutOp, Fsm.KeysNodup (Fsm.runTimeoutOps ops)) ∧
    (∀ st s i, Fsm.KeysNodup st → (s, i) ∈ st.timeouts →
      i ∈ (Fsm.set_timeout st s).cancelled ∧
      (∀ j, (s, j) ∈ (Fsm.set_timeout st s).timeouts → j = st.nextId)) ∧
    (∀ current s trig, (Fsm.timeout_task_body current s trig).isSome ↔ current = s) ∧
    (∀ s trig, Fsm.timeout_task_body s s trig = some trig) := by
  refine ⟨?_, ?_, ?_, ?_⟩
  · intro ops
    exact Fsm.keysNodup_foldl ops Fsm.initTimeoutState List.nodup_nil
  · intro st s i h hmem
    have hsome : (st.timeouts.find? (fun p => p.1 == s)).isSome := by
      rw [List.find?_isSome]
      exact ⟨(s, i), hmem, by simp⟩
    obtain ⟨p, hp⟩ := Option.isSome_iff_exists.mp hsome
    have hp1 : p.1 = s := by
      have := List.find?_some hp
      simpa using this
    have hpmem : p ∈ st.timeouts := List.mem_of_find?_eq_some hp
    have hpeq : p = (s, i) := Fsm.pair_eq_of_keysNodup h hpmem hmem (by rw [hp1])
    constructor
    · rw [Fsm.set_timeout_cancelled]
      unfold Fsm.clear_timeout
      rw [hp, hpeq]
      exact List.mem_cons_self i _
    · intro j hj
      rw [Fsm.set_timeout_timeouts] at hj
      rcases List.mem_append.mp hj with hj1 | hj2
      · exact absurd rfl (Fsm.clear_timeout_key_ne st s _ hj1)
      · rw [Fsm.clear_timeout_nextId] at hj2
        simpa using (List.mem_singleton.mp hj2)
  · intro current s trig
    unfold Fsm.timeout_task_body
    constructor
    · intro h
      by_contra hne
      rw [if_neg (by simpa using hne)] at h
      cases h
    · intro h
      rw [if_pos (by simpa using h)]
      rfl
  · intro s trig
    unfold Fsm.timeout_task_body
    rw [if_pos (by simp)]

/-- Closed witness for `c2_single_timeout_per_state`. -/
theorem c2_single_timeout_per_state_witness :
    Fsm.KeysNodup (Fsm.runTimeoutOps
      [Fsm.TimeoutOp.set "a", Fsm.TimeoutOp.set "a", Fsm.TimeoutOp.cancelAll,
       Fsm.TimeoutOp.set "b"]) ∧
    7 ∈ (Fsm.set_timeout
      { timeouts := [("a", 7)], cancelled := [], nextId := 9 } "a").cancelled ∧
    (Fsm.timeout_task_body "picking" "picking" "to_fault").isSome := by
  have h := c2_single_timeout_per_state
  exact ⟨h.1 _,
    (h.2.1 { timeouts := [("a", 7)], cancelled := [], nextId := 9 } "a" 7
      (by decide) (by decide)).1,
    (h.2.2.1 "picking" "picking" "to_fault").mpr rfl⟩

/-- C3: evaluation of `_add_recovery_transitions` against the set of leaf
states. A childless root state (`[{"name": "done"}]`, as in the repository's
own `test_start_else_branch`) is a leaf but receives no `recover__done`
trigger; a one-level group receives exactly the expected triggers; and with
two levels of nesting the code targets the intermediate (non-leaf) state
`a_b` instead of the leaf `a_b_c`. This contradicts the claim (and the
code's own recovery path, which fires `recover__<last leaf>`). -/
theorem c3_recovery_transitions_eval :
    Fsm.allLeafNames [Fsm.StateSpec.mk "done" []] = ["done"] ∧
    Fsm.add_recovery_transitions [Fsm.StateSpec.mk "done" []] = [] ∧
    Fsm.allLeafNames
      [Fsm.StateSpec.mk "duo" [Fsm.StateSpec.mk "left" [], Fsm.StateSpec.mk "right" []]] =
      ["duo_left", "duo_right"] ∧
    Fsm.add_recovery_transitions
      [Fsm.StateSpec.mk "duo" [Fsm.StateSpec.mk "left" [], Fsm.StateSpec.mk "right" []]] =
      [{ trigger := "recover__duo_left", source := "ready", dest := "duo_left" },
       { trigger := "recover__duo_right", source := "ready", dest := "duo_right" }] ∧
    Fsm.allLeafNames [Fsm.StateSpec.mk "a" [Fsm.StateSpec.mk "b" [Fsm.StateSpec.mk "c" []]]] =
      ["a_b_c"] ∧
    Fsm.add_recovery_transitions
      [Fsm.StateSpec.mk "a" [Fsm.StateSpec.mk "b" [Fsm.StateSpec.mk "c" []]]] =
      [{ trigger := "recover__a_b", source := "ready", dest := "a_b" }] := by
  refine ⟨?_, rfl, ?_, rfl, ?_, rfl⟩ <;>
    simp [Fsm.allLeafNames, Fsm.leafNames, Fsm.leafNamesList]

/-- C4: evaluation of the trigger-bundle RPC naming and handler. The code
builds `f"Trigger_{trig[0].upper()}{trig[1:]}"`, so `finished_picking` yields
`Trigger_Finished_picking`, not the PascalCase `Trigger_FinishedPicking`
demanded by the claim and by the code's own `# PascalCase RPC names`
comment. The invocation behavior (failed_precondition when unavailable, with
no state change; otherwise fire and report pre/post states) does hold. -/
theorem c4_trigger_bundle_eval :
    Bundle.rpc_name_for_trigger "finished_picking" = "Trigger_Finished_picking" ∧
    Bundle.spec_rpc_name_for_trigger "finished_picking" = "Trigger_FinishedPicking" ∧
    Bundle.rpc_name_for_trigger "finished_picking" ≠
      Bundle.spec_rpc_name_for_trigger "finished_picking" ∧
    Bundle.trigger_action_names ["start", "finished_picking", "to_fault"] =
      ["Trigger_Start", "Trigger_Finished_picking", "Trigger_To_fault"] ∧
    (∀ sm trig, trig ∉ sm.allowed sm.state →
      (Bundle.trigger_call sm trig).2 = sm.state ∧
      (Bundle.trigger_call sm trig).1 =
        Bundle.TriggerOutcome.err "failed_precondition"
          ("Trigger " ++ trig ++ " cannot run from " ++ sm.state)) ∧
    (∀ sm trig, trig ∈ sm.allowed sm.state →
      Bundle.trigger_call sm trig =
        (Bundle.TriggerOutcome.ok
          { result := trig, previous_state := sm.state,
            new_state := sm.fire trig sm.state }, sm.fire trig sm.state)) := by
  refine ⟨by decide, by decide, by decide, by decide, ?_, ?_⟩
  · intro sm trig h
    constructor <;> simp [Bundle.trigger_call, h]
  · intro sm trig h
    simp [Bundle.trigger_call, h]

/-- Closed witness for `c4_trigger_bundle_eval`. -/
theorem c4_trigger_bundle_eval_witness :
    (Bundle.trigger_call
      { state := "ready", allowed := fun _ => ["start"],
        fire := fun _ _ => "running_picking" } "finished_picking").2 = "ready" ∧
    Bundle.trigger_call
      { state := "ready", allowed := fun _ => ["start"],
        fire := fun _ _ => "running_picking" } "start" =
      (Bundle.TriggerOutcome.ok
        { result := "start", previous_state := "ready",
          new_state := "running_picking" }, "running_picking") := by
  have h := c4_trigger_bundle_eval
  exact ⟨(h.2.2.2.2.1 _ "finished_picking" (by decide)).1,
         h.2.2.2.2.2 _ "start" (by decide)⟩

/-- C7: `to_connect_error` maps timeouts to `deadline_exceeded`, KeyError and
ValueError (including Pydantic ValidationError) to `invalid_argument`,
PermissionError to `permission_denied`, returns a `ConnectError` unchanged
(its carried code), and maps everything else to `internal`; and the
`ConnectError` constructor rewrites any code outside the sixteen-code
taxonomy to `unknown` while keeping codes inside it. -/
theorem c7_exception_mapping :
    (∀ m, (Errors.to_connect_error (Errors.PyExc.timeoutError m)).code =
      "deadline_exceeded") ∧
    (∀ m, (Errors.to_connect_error (Errors.PyExc.keyError m)).code =
      "invalid_argument") ∧
    (∀ m, (Errors.to_connect_error (Errors.PyExc.valueError m)).code =
      "invalid_argument") ∧
    (∀ m, (Errors.to_connect_error (Errors.PyExc.validationError m)).code =
      "invalid_argument") ∧
    (∀ m, (Errors.to_connect_error (Errors.PyExc.permissionError m)).code =
      "permission_denied") ∧
    (∀ e, Errors.to_connect_error (Errors.PyExc.connectError e) = e) ∧
    (∀ clsName m, (Errors.to_connect_error (Errors.PyExc.otherError clsName m)).code =
      "internal") ∧
    (∀ c m, c ∉ Errors.CONNECT_CODES →
      Errors.mkConnectError c m = { code := "unknown", message := m }) ∧
    (∀ c m, c ∈ Errors.CONNECT_CODES →
      Errors.mkConnectError c m = { code := c, message := m }) := by
  refine ⟨?_, ?_, ?_, ?_, ?_, ?_, ?_, ?_, ?_⟩
  · intro m
    simp only [Errors.to_connect_error, Errors.mkConnectError]
    rw [if_pos (by decide)]
  · intro m
    simp only [Errors.to_connect_error, Errors.mkConnectError]
    rw [if_pos (by decide)]
  · intro m
    simp only [Errors.to_connect_error, Errors.mkConnectError]
    rw [if_pos (by decide)]
  · intro m
    simp only [Errors.to_connect_error, Errors.mkConnectError]
    rw [if_pos (by decide)]
  · intro m
    simp only [Errors.to_connect_error, Errors.mkConnectError]
    rw [if_pos (by decide)]
  · intro e
    rfl
  · intro clsName m
    simp only [Errors.to_connect_error, Errors.mkConnectError]
    rw [if_pos (by decide)]
  · intro c m h
    simp only [Errors.mkConnectError]
    rw [if_neg h]
  · intro c m h
    simp only [Errors.mkConnectError]
    rw [if_pos h]

/-- Closed witness for `c7_exception_mapping`. -/
theorem c7_exception_mapping_witness :
    (Errors.to_connect_error (Errors.PyExc.timeoutError "slow")).code =
      "deadline_exceeded" ∧
    Errors.mkConnectError "bogus_code" "x" = { code := "unknown", message := "x" } ∧
    Errors.mkConnectError "aborted" "y" = { code := "aborted", message := "y" } := by
  have h := c7_exception_mapping
  exact ⟨h.1 "slow", h.2.2.2.2.2.2.2.1 "bogus_code" "x" (by decide),
    h.2.2.2.2.2.2.2.2 "aborted" "y" (by decide)⟩

namespace Broker

theorem put_nowait_nil {α : Type} (cap : Nat) (v : α) :
    put_nowait cap [] v = some [v] := by
  unfold put_nowait
  rw [if_neg]
  · rfl
  · intro h
    simp only [List.length_nil] at h
    omega

theorem deliver_latest_bound {α : Type} (cap : Nat) (q : List α) (item : α)
    (h1 : 1 ≤ cap) (h2 : q.length ≤ cap) :
    ∃ q2, deliver_latest cap q item = some q2 ∧ q2.length ≤ cap ∧
      q2.getLast? = some item := by
  by_cases hfull : 0 < cap ∧ cap ≤ q.length
  · have hql : q.length = cap := by omega
    cases q with
    | nil => simp only [List.length_nil] at hql; omega
    | cons a t =>
      have hneg : ¬(0 < cap ∧ cap ≤ t.length) := by
        simp only [List.length_cons] at hql
        omega
      refine ⟨t ++ [item], ?_, ?_, List.getLast?_concat t⟩
      · unfold deliver_latest put_nowait get_nowait
        rw [if_pos hfull]
        show (match (if 0 < cap ∧ cap ≤ t.length then none
            else some (t ++ [item])) with
          | some q2 => some q2
          | none => none) = some (t ++ [item])
        rw [if_neg hneg]
      · simp only [List.length_append, List.length_singleton]
        simp only [List.length_cons] at hql
        omega
  · refine ⟨q ++ [item], ?_, ?_, List.getLast?_concat q⟩
    · unfold deliver_latest put_nowait
      rw [if_neg hfull]
    · simp only [List.length_append, List.length_singleton]
      omega

theorem deliver_latest_one {α : Type} (q : List α) (item : α) (h : q.length ≤ 1) :
    deliver_latest 1 q item = some [item] := by
  cases q with
  | nil =>
    unfold deliver_latest
    rw [put_nowait_nil]
  | cons a t =>
    cases t with
    | nil =>
      unfold deliver_latest put_nowait get_nowait
      rw [if_pos (by simp)]
      show (match (if 0 < 1 ∧ 1 ≤ ([] : List α).length then none
          else some ([] ++ [item])) with
        | some q2 => some q2
        | none => none) = some [item]
      rw [if_neg (by simp)]
      rfl
    | cons b r =>
      simp only [List.length_cons] at h
      omega

theorem deliver_all_one {α : Type} (items : List α) :
    ∀ (q : List α), q.length ≤ 1 → ∀ lastIt, items.getLast? = some lastIt →
      deliver_all 1 q items = some [lastIt] := by
  induction items with
  | nil => intro q hq lastIt hl; cases hl
  | cons it rest ih =>
    intro q hq lastIt hl
    cases rest with
    | nil =>
      simp only [List.getLast?_singleton, Option.some.injEq] at hl
      subst hl
      simp [deliver_all, List.foldl_cons, deliver_latest_one q it hq]
    | cons r rs =>
      rw [List.getLast?_cons_cons] at hl
      have := ih [it] (by simp) lastIt hl
      simp only [deliver_all, List.foldl_cons] at this ⊢
      simpa [deliver_latest_one q it hq] using this

end Broker

/-- C5: `StreamManager.subscribe` seeds the fresh subscriber queue with
`last_value` exactly when the stream's `replay` flag is set and a
`last_value` exists; otherwise the queue stays empty; the seed always
succeeds (never more than one queued item results, and the overflow-discard
path keeps it total). -/
theorem c5_subscribe_replay {α : Type} (entry : Broker.StreamEntryCfg)
    (lv : Option α) :
    (∀ v, entry.replay = true → lv = some v →
      Broker.subscribe_seed entry lv = some [v]) ∧
    (entry.replay = false → Broker.subscribe_seed entry lv = some []) ∧
    (lv = none → Broker.subscribe_seed entry lv = some []) ∧
    (∃ q, Broker.subscribe_seed entry lv = some q ∧ q.length ≤ 1) := by
  have h1 : ∀ v, entry.replay = true → lv = some v →
      Broker.subscribe_seed entry lv = some [v] := by
    intro v hr hl
    subst hl
    simp [Broker.subscribe_seed, hr, Broker.put_nowait_nil]
  have h2 : entry.replay = false → Broker.subscribe_seed entry lv = some [] := by
    intro hr
    simp [Broker.subscribe_seed, hr]
  have h3 : lv = none → Broker.subscribe_seed entry lv = some [] := by
    intro hl
    subst hl
    cases hr : entry.replay with
    | false => simp [Broker.subscribe_seed, hr]
    | true => simp [Broker.subscribe_seed, hr]
  refine ⟨h1, h2, h3, ?_⟩
  cases lv with
  | none => exact ⟨[], h3 rfl, by simp⟩
  | some v =>
    cases hr : entry.replay with
    | false => exact ⟨[], h2 hr, by simp⟩
    | true => exact ⟨[v], h1 v hr rfl, by simp⟩

/-- Closed witness for `c5_subscribe_replay`. -/
theorem c5_subscribe_replay_witness :
    Broker.subscribe_seed
      { name := "state_change", replay := true, queue_maxsize := 1,
        policy := "latest" } (some 42) = some [42] ∧
    Broker.subscribe_seed
      { name := "state_change", replay := false, queue_maxsize := 1,
        policy := "latest" } (some (42 : Nat)) = some [] :=
  ⟨(c5_subscribe_replay _ _).1 42 rfl rfl,
   (c5_subscribe_replay _ _).2.1 rfl⟩

/-- C6: under the `latest` policy a delivery to a subscriber with a bounded
queue always succeeds by discarding the oldest item when full, the queue
bound `queue_maxsize` is preserved, the delivered item becomes the newest
element; subscribers whose delivery fails are exactly the ones dropped from
the subscriber set; and a slow subscriber with `queue_maxsize = 1` reads the
latest published item after any non-empty publish sequence. -/
theorem c6_latest_policy {α : Type} :
    (∀ (cap : Nat) (q : List α) item, 1 ≤ cap → q.length ≤ cap →
      ∃ q2, Broker.deliver_latest cap q item = some q2 ∧ q2.length ≤ cap ∧
        q2.getLast? = some item) ∧
    (∀ (cap : Nat) (subs : List (List α)) item, 1 ≤ cap →
      (∀ q ∈ subs, q.length ≤ cap) →
      ∀ q2 ∈ Broker.distribute_latest cap subs item, q2.length ≤ cap) ∧
    (∀ (cap : Nat) (subs : List (List α)) item q2,
      q2 ∈ Broker.distribute_latest cap subs item ↔
        ∃ q ∈ subs, Broker.deliver_latest cap q item = some q2) ∧
    (∀ (q : List α) items lastIt, q.length ≤ 1 → items.getLast? = some lastIt →
      Broker.deliver_all 1 q items = some [lastIt]) := by
  refine ⟨Broker.deliver_latest_bound, ?_, ?_, ?_⟩
  · intro cap subs item hcap hsub q2 hq2
    obtain ⟨q, hq, hdel⟩ := List.mem_filterMap.mp hq2
    obtain ⟨q3, hq3, hlen, _⟩ := Broker.deliver_latest_bound cap q item hcap (hsub q hq)
    rw [hdel] at hq3
    injection hq3 with h
    rw [h]
    exact hlen
  · intro cap subs item q2
    exact List.mem_filterMap
  · intro q items lastIt hq hl
    exact Broker.deliver_all_one items q hq lastIt hl

/-- Closed witness for `c6_latest_policy`. -/
theorem c6_latest_policy_witness :
    (∃ q2, Broker.deliver_latest 1 [1] 2 = some q2 ∧ q2.length ≤ 1 ∧
      q2.getLast? = some 2) ∧
    Broker.deliver_all 1 ([] : List Nat) [10, 20, 30] = some [30] := by
  have h := c6_latest_policy (α := Nat)
  exact ⟨h.1 1 [1] 2 (by decide) (by decide),
    h.2.2.2 [] [10, 20, 30] 30 (by decide) (by decide)⟩

/-- C8 counterexample: a unary RPC with no input type receives a malformed
JSON body (`rawBody = none`). The code replaces the unparseable body with
`{}` and invokes the handler, returning a success response — not the
`invalid_argument` envelope the claim demands. -/
theorem c8_malformed_json_counterexample :
    (Router.handle_unary (J := Unit) (I := Unit) (R := Unit)
      none (fun _ => ()) () none).1 = true ∧
    (Router.handle_unary (J := Unit) (I := Unit) (R := Unit)
      none (fun _ => ()) () none).2 ≠
      Router.UnaryResult.errorEnvelope "invalid_argument" := by
  exact ⟨rfl, by decide⟩

/-- C8 (amended): malformed JSON is coerced to the empty object; the
`invalid_argument` envelope is returned — with the handler not invoked —
exactly when input-type coercion of the (possibly defaulted) body fails;
RPCs with no input type, or whose input type accepts the body, invoke the
handler and succeed. -/
theorem c8_invalid_input (J I R : Type) (v : J → Except Errors.PyExc I)
    (func : Option I → R) (emptyObj : J) (rawBody : Option J) :
    (∀ m, v (rawBody.getD emptyObj) = Except.error (Errors.PyExc.validationError m) →
      Router.handle_unary (some v) func emptyObj rawBody =
        (false, Router.UnaryResult.errorEnvelope "invalid_argument")) ∧
    (∀ arg, v (rawBody.getD emptyObj) = Except.ok arg →
      Router.handle_unary (some v) func emptyObj rawBody =
        (true, Router.UnaryResult.ok (func (some arg)))) ∧
    Router.handle_unary (J := J) (I := I) none func emptyObj rawBody =
      (true, Router.UnaryResult.ok (func none)) := by
  refine ⟨?_, ?_, rfl⟩
  · intro m h
    have hc : (Errors.to_connect_error (Errors.PyExc.validationError m)).code =
        "invalid_argument" := by
      simp only [Errors.to_connect_error, Errors.mkConnectError]
      rw [if_pos (by decide)]
    simp [Router.handle_unary, h, hc]
  · intro arg h
    simp [Router.handle_unary, h]

/-- Closed witness for `c8_invalid_input`: a required field missing from the
defaulted empty body yields the `invalid_argument` envelope without invoking
the handler. -/
theorem c8_invalid_input_witness :
    Router.handle_unary
      (some fun j : Option Nat =>
        match j with
        | some n => Except.ok n
        | none => Except.error (Errors.PyExc.validationError "missing field"))
      (fun o : Option Nat => o.getD 0) none none =
      (false, Router.UnaryResult.errorEnvelope "invalid_argument") :=
  (c8_invalid_input (Option Nat) Nat Nat _ _ _ _).1 "missing field" rfl

/-- C10: `StreamManager.publish` raises KeyError for a stream name with no
topic; `ConnectRouter.publish` raises KeyError when the name is also absent
from its registered stream entries, and delegates unchanged when the topic
exists; a publish to a registered topic succeeds and appends the item to
that topic's publish queue. -/
theorem c10_publish_unknown_stream {α : Type} :
    (∀ (topics : List (String × List α)) name item,
      topics.find? (fun p => p.1 == name) = none →
      Broker.sm_publish topics name item =
        Except.error ("Unknown stream: " ++ name)) ∧
    (∀ (topics : List (String × List α)) streams name item,
      topics.find? (fun p => p.1 == name) = none → name ∉ streams →
      Broker.router_publish topics streams name item =
        Except.error ("Unknown stream: " ++ name)) ∧
    (∀ (topics : List (String × List α)) streams name item,
      (topics.find? (fun p => p.1 == name)).isSome →
      Broker.router_publish topics streams name item =
        Broker.sm_publish topics name item) ∧
    (∀ (topics : List (String × List α)) name item p,
      topics.find? (fun p => p.1 == name) = some p →
      ∃ t2, Broker.sm_publish topics name item = Except.ok t2 ∧
        t2.find? (fun q => q.1 == name) = some (p.1, p.2 ++ [item])) := by
  refine ⟨?_, ?_, ?_, ?_⟩
  · intro topics name item h
    simp [Broker.sm_publish, h]
  · intro topics streams name item h h2
    simp [Broker.router_publish, Broker.sm_publish, h, h2]
  · intro topics streams name item h
    unfold Broker.router_publish
    rw [if_pos h]
  · intro topics name item p hp
    have hp1 : (p.1 == name) = true := by
      have := List.find?_some hp
      simpa using this
    refine ⟨topics.map (fun q => if q.1 == name then (q.1, q.2 ++ [item]) else q),
      ?_, ?_⟩
    · unfold Broker.sm_publish
      rw [hp]
    · rw [List.find?_map]
      have hcomp : ((fun q : String × List α => q.1 == name) ∘
          (fun q : String × List α =>
            if q.1 == name then (q.1, q.2 ++ [item]) else q)) =
          (fun q : String × List α => q.1 == name) := by
        funext x
        simp only [Function.comp_apply]
        by_cases hb : x.1 = name
        · simp [hb]
        · simp [hb]
      rw [hcomp, hp]
      have hp2 : p.1 = name := by simpa using hp1
      simp [hp2]

/-- Closed witness for `c10_publish_unknown_stream`. -/
theorem c10_publish_unknown_stream_witness :
    Broker.sm_publish ([] : List (String × List Nat)) "missing" 1 =
      Except.error ("Unknown stream: " ++ "missing") ∧
    Broker.router_publish ([] : List (String × List Nat)) [] "missing" 1 =
      Except.error ("Unknown stream: " ++ "missing") ∧
    (∃ t2, Broker.sm_publish [("state_change", [7])] "state_change" 8 =
      Except.ok t2 ∧
      t2.find? (fun q => q.1 == "state_change") = some ("state_change", [7, 8])) := by
  have h := c10_publish_unknown_stream (α := Nat)
  refine ⟨h.1 [] "missing" 1 rfl, h.2.1 [] [] "missing" 1 rfl (by decide), ?_⟩
  exact h.2.2.2 [("state_change", [7])] "state_change" 8 ("state_change", [7]) rfl

namespace Registry

theorem Extends.rfl (st : NormState) : Extends st st := by
  constructor
  · intro x hx; exact hx
  · intro x
    simp

theorem Extends.trans {st1 st2 st3 : NormState}
    (e12 : Extends st1 st2) (e23 : Extends st2 st3) : Extends st1 st3 := by
  constructor
  · intro x hx
    exact e23.1 x (e12.1 x hx)
  · intro x
    have c2 := e12.2 x
    have c3 := e23.2 x
    by_cases h1 : x ∈ st1.seen
    · have h2 : x ∈ st2.seen := e12.1 x h1
      have h3 : x ∈ st3.seen := e23.1 x h2
      simp [h1, h2, h3] at c2 c3 ⊢
      omega
    · by_cases h2 : x ∈ st2.seen
      · have h3 : x ∈ st3.seen := e23.1 x h2
        simp [h1, h2, h3] at c2 c3 ⊢
        omega
      · by_cases h3 : x ∈ st3.seen
        · simp [h1, h2, h3] at c2 c3 ⊢
          omega
        · simp [h1, h2, h3] at c2 c3 ⊢
          omega

theorem extends_foldl {f : NormState → Nat → NormState}
    (hf : ∀ st n, Extends st (f st n)) :
    ∀ (ns : List Nat) (st : NormState), Extends st (ns.foldl f st) := by
  intro ns
  induction ns with
  | nil => intro st; exact Extends.rfl st
  | cons n rest ih =>
    intro st
    exact Extends.trans (hf st n) (ih (f st n))

theorem extends_normalize (fields : Fields) :
    ∀ (fuel : Nat) (r : Option Nat) (st : NormState),
      Extends st (normalize_model fields fuel r st) := by
  intro fuel
  induction fuel with
  | zero =>
    intro r st
    cases r with
    | none => exact Extends.rfl st
    | some m => exact Extends.rfl st
  | succ fuel ih =>
    intro r st
    cases r with
    | none => exact Extends.rfl st
    | some m =>
      show Extends st (normalize_model fields (fuel + 1) (some m) st)
      rw [normalize_model]
      by_cases hm : m ∈ st.seen
      · rw [if_pos hm]
        exact Extends.rfl st
      · rw [if_neg hm]
        have e1 : Extends st
            { seen := m :: st.seen, applied := st.applied ++ [m] } := by
          constructor
          · intro x hx
            exact List.mem_cons_of_mem m hx
          · intro x
            by_cases hx : x = m
            · subst hx
              simp [hm, List.count_append]
            · simp [hx, List.count_append, List.mem_cons]
        exact Extends.trans e1 (extends_foldl (fun st0 n => ih (some n) st0) _ _)

theorem normalize_foldl_option (fields : Fields) (fuel : Nat) :
    ∀ (opts : List (Option Nat)) (s0 : NormState),
      opts.foldl (fun s r => normalize_model fields fuel r s) s0 =
        (opts.filterMap id).foldl
          (fun s n => normalize_model fields fuel (some n) s) s0 := by
  intro opts
  induction opts with
  | nil => intro s0; rfl
  | cons o rest ih =>
    intro s0
    cases o with
    | none =>
      show List.foldl _ (normalize_model fields fuel none s0) rest = _
      have hid : normalize_model fields fuel none s0 = s0 := by
        cases fuel <;> rfl
      rw [hid]
      exact ih s0
    | some m =>
      exact ih _

end Registry

namespace Registry

theorem length_filter_mono {α : Type} {p q : α → Bool}
    (h : ∀ x, p x = true → q x = true) :
    ∀ l : List α, (l.filter p).length ≤ (l.filter q).length := by
  intro l
  induction l with
  | nil => exact Nat.le_refl 0
  | cons a t ih =>
    by_cases hp : p a = true
    · rw [List.filter_cons_of_pos hp, List.filter_cons_of_pos (h a hp)]
      simpa using ih
    · rw [List.filter_cons_of_neg (by simpa using hp)]
      by_cases hq : q a = true
      · rw [List.filter_cons_of_pos hq]
        exact Nat.le_succ_of_le ih
      · rw [List.filter_cons_of_neg (by simpa using hq)]
        exact ih

theorem length_filter_ne_lt {l : List Nat} {m : Nat} (hm : m ∈ l) :
    (l.filter (fun x => decide (x ≠ m))).length < l.length := by
  induction l with
  | nil => cases hm
  | cons a t ih =>
    by_cases ha : a = m
    · subst ha
      rw [List.filter_cons_of_neg (by simp)]
      have := List.length_filter_le (fun x => decide (x ≠ a)) t
      simp only [List.length_cons]
      omega
    · rcases List.mem_cons.mp hm with rfl | hmt
      · exact absurd rfl ha
      · rw [List.filter_cons_of_pos (by simpa using ha)]
        simpa using ih hmt

theorem slack_le_of_subset {s1 s2 : List Nat} (bound : Nat)
    (h : ∀ x, x ∈ s1 → x ∈ s2) : slack bound s2 ≤ slack bound s1 := by
  apply length_filter_mono
  intro x hx
  simp only [decide_eq_true_eq] at hx ⊢
  intro hmem
  exact hx (h x hmem)

theorem slack_insert_lt {seen : List Nat} {m bound : Nat}
    (hm : m < bound) (hnot : m ∉ seen) :
    slack bound (m :: seen) < slack bound seen := by
  have hsplit : (List.range bound).filter (fun x => decide (x ∉ m :: seen)) =
      ((List.range bound).filter (fun x => decide (x ∉ seen))).filter
        (fun x => decide (x ≠ m)) := by
    rw [List.filter_filter]
    apply List.filter_congr
    intro x _
    by_cases hxm : x = m
    · simp [hxm, hnot]
    · by_cases hxs : x ∈ seen
      · simp [hxm, hxs]
      · simp [hxm, hxs]
  show ((List.range bound).filter (fun x => decide (x ∉ m :: seen))).length <
    ((List.range bound).filter (fun x => decide (x ∉ seen))).length
  rw [hsplit]
  apply length_filter_ne_lt
  rw [List.mem_filter]
  refine ⟨List.mem_range.mpr hm, by simpa using hnot⟩

end Registry

namespace Registry

theorem normalize_fold (fields : Fields) (bound fuel : Nat)
    (helem : ∀ m st, slack bound st.seen < fuel → m < bound → SeenBound bound st →
      m ∈ (normalize_model fields fuel (some m) st).seen ∧
      SeenBound bound (normalize_model fields fuel (some m) st) ∧
      (∀ a, a ∈ (normalize_model fields fuel (some m) st).seen → a ∉ st.seen →
        ∀ n ∈ nestedOf fields a,
          n ∈ (normalize_model fields fuel (some m) st).seen)) :
    ∀ ns : List Nat, (∀ c ∈ ns, c < bound) →
    ∀ s0 : NormState, SeenBound bound s0 → slack bound s0.seen < fuel →
      (∀ x ∈ s0.seen,
        x ∈ (ns.foldl (fun s n => normalize_model fields fuel (some n) s) s0).seen) ∧
      (∀ c ∈ ns,
        c ∈ (ns.foldl (fun s n => normalize_model fields fuel (some n) s) s0).seen) ∧
      SeenBound bound (ns.foldl (fun s n => normalize_model fields fuel (some n) s) s0) ∧
      slack bound (ns.foldl (fun s n => normalize_model fields fuel (some n) s) s0).seen ≤
        slack bound s0.seen ∧
      (∀ a, a ∈ (ns.foldl (fun s n => normalize_model fields fuel (some n) s) s0).seen →
        a ∉ s0.seen → ∀ n ∈ nestedOf fields a,
          n ∈ (ns.foldl (fun s n => normalize_model fields fuel (some n) s) s0).seen) := by
  intro ns
  induction ns with
  | nil =>
    intro _ s0 hb _
    refine ⟨fun x hx => hx, ?_, hb, Nat.le_refl _, ?_⟩
    · intro c hc
      cases hc
    · intro a ha hna
      exact absurd ha hna
  | cons c cs ihn =>
    intro hc s0 hb hslack
    have hcN : c < bound := hc c (List.mem_cons_self c cs)
    have he := helem c s0 hslack hcN hb
    have hmono01 : ∀ x ∈ s0.seen, x ∈ (normalize_model fields fuel (some c) s0).seen :=
      (extends_normalize fields fuel (some c) s0).1
    have hb1 : SeenBound bound (normalize_model fields fuel (some c) s0) := he.2.1
    have hslack1 : slack bound (normalize_model fields fuel (some c) s0).seen ≤
        slack bound s0.seen := slack_le_of_subset bound hmono01
    have ihres := ihn (fun x hx => hc x (List.mem_cons_of_mem c hx))
      (normalize_model fields fuel (some c) s0) hb1 (by omega)
    simp only [List.foldl_cons]
    refine ⟨?_, ?_, ihres.2.2.1, ?_, ?_⟩
    · intro x hx
      exact ihres.1 x (hmono01 x hx)
    · intro x hx
      rcases List.mem_cons.mp hx with rfl | hx2
      · exact ihres.1 x (he.1)
      · exact ihres.2.1 x hx2
    · exact Nat.le_trans ihres.2.2.2.1 hslack1
    · intro a ha hna n hn
      by_cases ha1 : a ∈ (normalize_model fields fuel (some c) s0).seen
      · exact ihres.1 n (he.2.2 a ha1 hna n hn)
      · exact ihres.2.2.2.2 a ha ha1 n hn

theorem normalize_complete (fields : Fields) (bound : Nat)
    (hclosed : ∀ a n, n ∈ nestedOf fields a → n < bound) :
    ∀ (fuel m : Nat) (st : NormState),
      slack bound st.seen < fuel → m < bound → SeenBound bound st →
      m ∈ (normalize_model fields fuel (some m) st).seen ∧
      SeenBound bound (normalize_model fields fuel (some m) st) ∧
      (∀ a, a ∈ (normalize_model fields fuel (some m) st).seen → a ∉ st.seen →
        ∀ n ∈ nestedOf fields a,
          n ∈ (normalize_model fields fuel (some m) st).seen) := by
  intro fuel
  induction fuel with
  | zero =>
    intro m st hslack
    exact absurd hslack (Nat.not_lt_zero _)
  | succ fuel ih =>
    intro m st hslack hm hb
    by_cases hmem : m ∈ st.seen
    · have heq : normalize_model fields (fuel + 1) (some m) st = st := by
        rw [normalize_model, if_pos hmem]
      rw [heq]
      exact ⟨hmem, hb, fun a ha hna => absurd ha hna⟩
    · have heq : normalize_model fields (fuel + 1) (some m) st =
          (nestedOf fields m).foldl (fun s n => normalize_model fields fuel (some n) s)
            { seen := m :: st.seen, applied := st.applied ++ [m] } := by
        rw [normalize_model, if_neg hmem]
      have hb1 : SeenBound bound
          ({ seen := m :: st.seen, applied := st.applied ++ [m] } : NormState) := by
        intro x hx
        rcases List.mem_cons.mp hx with rfl | hx2
        · exact hm
        · exact hb x hx2
      have hslack1 : slack bound
          ({ seen := m :: st.seen, applied := st.applied ++ [m] } : NormState).seen <
          fuel := by
        show slack bound (m :: st.seen) < fuel
        have h2 := slack_insert_lt hm hmem
        omega
      have hfold := normalize_fold fields bound fuel ih (nestedOf fields m)
        (fun c hc => hclosed m c hc) _ hb1 hslack1
      rw [heq]
      refine ⟨?_, hfold.2.2.1, ?_⟩
      · exact hfold.1 m (List.mem_cons_self m _)
      · intro a ha hna n hn
        by_cases ham : a = m
        · subst ham
          exact hfold.2.1 n hn
        · have ha1 : a ∉
              ({ seen := m :: st.seen, applied := st.applied ++ [m] } : NormState).seen := by
            intro hcon
            rcases List.mem_cons.mp hcon with h | h
            · exact ham h
            · exact hna h
          exact hfold.2.2.2.2 a ha ha1 n hn

end Registry

namespace Registry

theorem schema_after_not_mem (fields : Fields) (applied : List Nat) (m : Nat)
    (f : String) (hm : m ∉ applied) :
    ∀ σ0 : Schema, schema_after fields applied σ0 m f = σ0 m f := by
  induction applied with
  | nil => intro σ0; rfl
  | cons a t ih =>
    intro σ0
    have ham : m ≠ a := fun h => hm (h ▸ List.mem_cons_self a t)
    have hmt : m ∉ t := fun h => hm (List.mem_cons_of_mem a h)
    show schema_after fields t (apply_aliases fields a σ0) m f = σ0 m f
    rw [ih hmt]
    unfold apply_aliases
    rw [if_neg (fun hcon => ham hcon.1)]

theorem schema_after_mem (fields : Fields) (applied : List Nat) (m : Nat)
    (f : String) (hf : f ∈ (fields m).map Prod.fst) :
    ∀ σ0 : Schema, m ∈ applied →
      schema_after fields applied σ0 m f = some (camelize f) := by
  induction applied with
  | nil =>
    intro σ0 hm
    cases hm
  | cons a t ih =>
    intro σ0 hm
    by_cases hmt : m ∈ t
    · exact ih _ hmt
    · have ham : m = a := by
        rcases List.mem_cons.mp hm with h | h
        · exact h
        · exact absurd h hmt
      subst ham
      show schema_after fields t (apply_aliases fields m σ0) m f = some (camelize f)
      rw [schema_after_not_mem fields t m f hmt]
      unfold apply_aliases
      rw [if_pos ⟨rfl, hf⟩]

theorem registry_run_facts (fields : Fields) (bound : Nat) (reg : RegistryState)
    (hreg : reg.normalized = false)
    (hroots : ∀ r ∈ reg.rootTypes.filterMap id, r < bound)
    (hclosed : ∀ a n, n ∈ nestedOf fields a → n < bound) :
    (normalize_models_and_apply_aliases fields (bound + 1) reg).1.normalized = true ∧
    (∀ x, Reaches fields (reg.rootTypes.filterMap id) x →
      (normalize_models_and_apply_aliases fields (bound + 1) reg).2.count x = 1) ∧
    (∀ x, (normalize_models_and_apply_aliases fields (bound + 1) reg).2.count x ≤ 1) ∧
    (∀ x, Reaches fields (reg.rootTypes.filterMap id) x →
      x ∈ (normalize_models_and_apply_aliases fields (bound + 1) reg).2) := by
  have hrun : normalize_models_and_apply_aliases fields (bound + 1) reg =
      ({ reg with normalized := true },
        ((reg.rootTypes.filterMap id).foldl
          (fun s n => normalize_model fields (bound + 1) (some n) s)
          { seen := [], applied := [] }).applied) := by
    unfold normalize_models_and_apply_aliases
    rw [if_neg (by rw [hreg]; exact Bool.false_ne_true)]
    rw [normalize_foldl_option]
  have hb0 : SeenBound bound ({ seen := [], applied := [] } : NormState) := by
    intro x hx
    cases hx
  have hs0 : slack bound ({ seen := [], applied := [] } : NormState).seen < bound + 1 := by
    show slack bound [] < bound + 1
    have h1 := List.length_filter_le (fun x => decide (x ∉ ([] : List Nat)))
      (List.range bound)
    have h2 : (List.range bound).length = bound := List.length_range bound
    unfold slack
    omega
  have hfold := normalize_fold fields bound (bound + 1)
    (fun m st h1 h2 h3 => normalize_complete fields bound hclosed (bound + 1) m st h1 h2 h3)
    (reg.rootTypes.filterMap id) hroots { seen := [], applied := [] } hb0 hs0
  have hext : Extends { seen := [], applied := [] }
      ((reg.rootTypes.filterMap id).foldl
        (fun s n => normalize_model fields (bound + 1) (some n) s)
        { seen := [], applied := [] }) :=
    extends_foldl (fun st n => extends_normalize fields (bound + 1) (some n) st) _ _
  have hreach : ∀ x, Reaches fields (reg.rootTypes.filterMap id) x →
      x ∈ ((reg.rootTypes.filterMap id).foldl
        (fun s n => normalize_model fields (bound + 1) (some n) s)
        { seen := [], applied := [] }).seen := by
    intro x hx
    induction hx with
    | root h => exact hfold.2.1 _ h
    | step _ hn ih => exact hfold.2.2.2.2 _ ih (List.not_mem_nil _) _ hn
  have hcount : ∀ x,
      ((reg.rootTypes.filterMap id).foldl
        (fun s n => normalize_model fields (bound + 1) (some n) s)
        { seen := [], applied := [] }).applied.count x =
      (if x ∈ ((reg.rootTypes.filterMap id).foldl
        (fun s n => normalize_model fields (bound + 1) (some n) s)
        { seen := [], applied := [] }).seen then 1 else 0) := by
    intro x
    have h := hext.2 x
    simpa using h
  rw [hrun]
  refine ⟨rfl, ?_, ?_, ?_⟩
  · intro x hx
    rw [hcount x, if_pos (hreach x hx)]
  · intro x
    rw [hcount x]
    by_cases hx : x ∈ ((reg.rootTypes.filterMap id).foldl
        (fun s n => normalize_model fields (bound + 1) (some n) s)
        { seen := [], applied := [] }).seen
    · rw [if_pos hx]
    · rw [if_neg hx]
      omega
  · intro x hx
    have h1 := hcount x
    rw [if_pos (hreach x hx)] at h1
    refine List.count_pos_iff.mp ?_
    rw [h1]
    exact Nat.one_pos

end Registry

namespace Registry

theorem normalize_noop (fields : Fields) (fuel : Nat) (r : RegistryState)
    (h : r.normalized = true) :
    normalize_models_and_apply_aliases fields fuel r = (r, []) := by
  unfold normalize_models_and_apply_aliases
  rw [if_pos h]

end Registry

/-- C9: alias normalization is idempotent — the second run (e.g. via a second
`get_unified_bundle`) is a no-op, so the schema after two runs equals the
schema after one — and every model reachable from the registered root types
through the `Optional`/`List` traversal of `_extract_nested_models` has
`apply_aliases` applied exactly once, giving each of its fields its
camelCase alias. -/
theorem c9_alias_normalization (fields : Registry.Fields) (bound : Nat)
    (reg : Registry.RegistryState)
    (hreg : reg.normalized = false)
    (hroots : ∀ r ∈ reg.rootTypes.filterMap id, r < bound)
    (hclosed : ∀ a n, n ∈ Registry.nestedOf fields a → n < bound) :
    Registry.normalize_models_and_apply_aliases fields (bound + 1)
        (Registry.normalize_models_and_apply_aliases fields (bound + 1) reg).1 =
      ((Registry.normalize_models_and_apply_aliases fields (bound + 1) reg).1, []) ∧
    (∀ σ0 : Registry.Schema,
      Registry.schema_after fields
        ((Registry.normalize_models_and_apply_aliases fields (bound + 1) reg).2 ++
          (Registry.normalize_models_and_apply_aliases fields (bound + 1)
            (Registry.normalize_models_and_apply_aliases fields (bound + 1) reg).1).2)
        σ0 =
      Registry.schema_after fields
        (Registry.normalize_models_and_apply_aliases fields (bound + 1) reg).2 σ0) ∧
    (∀ x, Registry.Reaches fields (reg.rootTypes.filterMap id) x →
      ((Registry.normalize_models_and_apply_aliases fields (bound + 1) reg).2).count x
        = 1) ∧
    (∀ x,
      ((Registry.normalize_models_and_apply_aliases fields (bound + 1) reg).2).count x
        ≤ 1) ∧
    (∀ x, Registry.Reaches fields (reg.rootTypes.filterMap id) x →
      ∀ fname ∈ (fields x).map Prod.fst, ∀ σ0 : Registry.Schema,
        Registry.schema_after fields
          ((Registry.normalize_models_and_apply_aliases fields (bound + 1) reg).2)
          σ0 x fname = some (Registry.camelize fname)) := by
  have hf := Registry.registry_run_facts fields bound reg hreg hroots hclosed
  have hsecond := Registry.normalize_noop fields (bound + 1)
    (Registry.normalize_models_and_apply_aliases fields (bound + 1) reg).1 hf.1
  refine ⟨hsecond, ?_, hf.2.1, hf.2.2.1, ?_⟩
  · intro σ0
    have h2 : (Registry.normalize_models_and_apply_aliases fields (bound + 1)
        (Registry.normalize_models_and_apply_aliases fields (bound + 1) reg).1).2 =
        ([] : List Nat) := congrArg Prod.snd hsecond
    rw [h2, List.append_nil]
  · intro x hx fname hfname σ0
    exact Registry.schema_after_mem fields _ x fname hfname σ0 (hf.2.2.2 x hx)

/-- Closed witness for `c9_alias_normalization` on the `exampleFields`
universe (model 0 → Optional model 1 → List-of-Optional model 2). -/
theorem c9_alias_normalization_witness :
    ((Registry.normalize_models_and_apply_aliases Registry.exampleFields (3 + 1)
      { rootTypes := [some 0, none], normalized := false }).2).count 2 = 1 ∧
    Registry.schema_after Registry.exampleFields
      ((Registry.normalize_models_and_apply_aliases Registry.exampleFields (3 + 1)
        { rootTypes := [some 0, none], normalized := false }).2)
      (fun _ _ => none) 1 "leaf_items" = some (Registry.camelize "leaf_items") := by
  have hclosed : ∀ a n, n ∈ Registry.nestedOf Registry.exampleFields a → n < 3 := by
    intro a n hn
    rcases a with _ | _ | a2
    · have he : Registry.nestedOf Registry.exampleFields 0 = [1] := by decide
      rw [he] at hn
      simp at hn
      omega
    · have he : Registry.nestedOf Registry.exampleFields 1 = [2] := by decide
      rw [he] at hn
      simp at hn
      omega
    · have he : Registry.nestedOf Registry.exampleFields (a2 + 2) = [] := rfl
      rw [he] at hn
      cases hn
  have h := c9_alias_normalization Registry.exampleFields 3
    { rootTypes := [some 0, none], normalized := false } rfl (by decide) hclosed
  have r0 : Registry.Reaches Registry.exampleFields
      (({ rootTypes := [some 0, none], normalized := false } :
        Registry.RegistryState).rootTypes.filterMap id) 0 :=
    Registry.Reaches.root (by decide)
  have r1 := Registry.Reaches.step r0 (show 1 ∈ Registry.nestedOf
    Registry.exampleFields 0 by decide)
  have r2 := Registry.Reaches.step r1 (show 2 ∈ Registry.nestedOf
    Registry.exampleFields 1 by decide)
  exact ⟨h.2.2.1 2 r2, h.2.2.2.2 1 r1 "leaf_items" (by decide) (fun _ _ => none)⟩
